import Mathlib

/-!
Shallow embedding of `src/TeacherDashboard.jsx` (repository
`teacher-dashboard`): the result-aggregation and view-derivation pipeline
of the teacher dashboard.

Modelling conventions:
* A Firestore result document is a `Record`; optional JS fields are
  `Option`s.  Timestamps (`+new Date(...)` millisecond values) are `Int`.
* JS objects used as string-keyed dictionaries (`map[lvl][name]`,
  `scores`) are insertion-ordered association lists, matching the
  enumeration order of `Object.keys` / `Object.entries` for non-index
  string keys.  Prototype-chain artefacts of JS property lookup are not
  modelled: objects are treated as plain dictionaries.
* `Array.prototype.sort(cmp)` (stable, comparator-driven) is modelled by
  a stable insertion sort parameterised by the comparator; the
  locale-dependent `String.localeCompare` is kept abstract as a
  comparator argument `cmp : String → String → Int`.
-/

namespace TD

/-- A normalized result document (`normalizeDoc`): the fields the
dashboard reads.  Missing JS fields are `none`. -/
structure Record where
  firstName : Option String
  lastName : Option String
  level : Option String
  scores : Option (List (String × Int))
  createdAt : Option Int
deriving DecidableEq

/-- `INTELLIGENCE_KEYS`: canonical order of the eight intelligence keys. -/
def INTELLIGENCE_KEYS : List String :=
  ["Linguistic", "Logical-Mathematical", "Spatial", "Kinesthetic",
   "Musical", "Interpersonal", "Intrapersonal", "Naturalistic"]

/-- `LABELS`: map from stored keys to the labels shown in the dashboard. -/
def LABELS : List (String × String) :=
  [("Linguistic", "Linguistic"),
   ("Logical-Mathematical", "Logical/Math"),
   ("Spatial", "Spatial"),
   ("Kinesthetic", "Kinesthetic"),
   ("Musical", "Musical"),
   ("Interpersonal", "Interpersonal"),
   ("Intrapersonal", "Intrapersonal"),
   ("Naturalistic", "Naturalistic")]

/-- `MAX_SCORE`: maximum possible score per intelligence. -/
def MAX_SCORE : Int := 9

/-- JS `x || d` for an optional string: `undefined` and `""` are falsy. -/
def orDefault (o : Option String) (d : String) : String :=
  match o with
  | none => d
  | some s => if s = "" then d else s

/-- JS `String.prototype.trim()`: drop leading and trailing whitespace
(modelled on the characters of the string). -/
def trimStr (s : String) : String :=
  String.mk (((s.data.dropWhile Char.isWhitespace).reverse.dropWhile
    Char.isWhitespace).reverse)

/-- JS `String.prototype.toLowerCase()` (ASCII case mapping). -/
def lowerStr (s : String) : String := String.mk (s.data.map Char.toLower)

/-- First lookup in a JS string-keyed object, as an association list. -/
def alistFind {α : Type} (l : List (String × α)) (k : String) : Option α :=
  match l with
  | [] => none
  | (k', v) :: rest => if k' = k then some v else alistFind rest k

/-- `r.level || "unknown"` (line 95). -/
def lvlOf (r : Record) : String := orDefault r.level "unknown"

/-- Display name (line 96):
`` `${r.firstName || ""} ${r.lastName || ""}`.trim() || "(no name)" ``. -/
def displayName (r : Record) : String :=
  let s := trimStr ((r.firstName.getD "") ++ " " ++ (r.lastName.getD ""))
  if s = "" then "(no name)" else s

/-- `r.createdAt ? +new Date(r.createdAt) : 0` (lines 103-104). -/
def timeOf (r : Record) : Int := r.createdAt.getD 0

/-- The dedup step (lines 102-105): keep the most recent by `createdAt`,
strict greater-than, so ties keep the previously retained record. -/
def keepLatest (prev r : Record) : Record :=
  if timeOf prev < timeOf r then r else prev

/-- Update of the inner `name -> record` object (lines 98-106): a new
name is appended; an existing name keeps the more recent record. -/
def updateName (inner : List (String × Record)) (name : String) (r : Record) :
    List (String × Record) :=
  match inner with
  | [] => [(name, r)]
  | (n, prev) :: rest =>
    if n = name then (n, keepLatest prev r) :: rest
    else (n, prev) :: updateName rest name r

/-- Update of the outer `level -> (name -> record)` object (line 97 with
lines 98-106): a new level is appended with a singleton inner object. -/
def updateLevel (m : List (String × List (String × Record)))
    (lvl name : String) (r : Record) : List (String × List (String × Record)) :=
  match m with
  | [] => [(lvl, [(name, r)])]
  | (l, inner) :: rest =>
    if l = lvl then (l, updateName inner name r) :: rest
    else (l, inner) :: updateLevel rest lvl name r

/-- `latestPerStudent` (lines 92-109): fold the fetched records into the
level -> name -> latest-record map. -/
def latestPerStudent (rs : List Record) : List (String × List (String × Record)) :=
  rs.foldl (fun m r => updateLevel m (lvlOf r) (displayName r) r) []

/-- `latestPerStudent[lvl][name]` as a partial lookup. -/
def findStudent (m : List (String × List (String × Record)))
    (lvl name : String) : Option Record :=
  match alistFind m lvl with
  | none => none
  | some inner => alistFind inner name

/-- One dedup-fold step on an optional current winner. -/
def pickLatest (acc : Option Record) (r : Record) : Option Record :=
  match acc with
  | none => some r
  | some prev => some (keepLatest prev r)

/-- Specification-side winner of a group: left fold of `pickLatest`. -/
def bestOf (rs : List Record) : Option Record := rs.foldl pickLatest none

/-- The (level, name) group of a record list. -/
def groupOf (rs : List Record) (lvl name : String) : List Record :=
  rs.filter (fun r => decide (lvlOf r = lvl ∧ displayName r = name))

/-- Stable insertion of one element for a boolean "goes before or at"
test, modelling one placement step of `Array.prototype.sort`. -/
def insertCmp {α : Type} (le : α → α → Bool) (e : α) : List α → List α
  | [] => [e]
  | x :: xs => if le e x then e :: x :: xs else x :: insertCmp le e xs

/-- Stable comparator sort, modelling `Array.prototype.sort(cmp)`
(`le a b` holds when `cmp(a, b) <= 0`). -/
def sortCmp {α : Type} (le : α → α → Bool) (l : List α) : List α :=
  l.foldr (insertCmp le) []

/-- A visible entry (lines 120-124): `{ level, name, doc }`. -/
structure Entry where
  level : String
  name : String
  doc : Record
deriving DecidableEq

/-- Candidate level list (line 114): the keys of `latestPerStudent`, or
the fixed four levels when there are none. -/
def candidateLevels (m : List (String × List (String × Record))) : List String :=
  if m.map Prod.fst = ([] : List String) then ["level1", "level2", "level3", "level4"]
  else m.map Prod.fst

/-- JS `s.includes(pat)` on strings: substring containment. -/
def strIncludes (s pat : String) : Bool :=
  s.data.tails.any (fun t => pat.data.isPrefixOf t)

/-- The entries one candidate level contributes (lines 115-126): skip
the level unless it passes the grade filter, then keep each student of
that level whose name passes the search filter. -/
def entriesForLevel (m : List (String × List (String × Record)))
    (levelFilter search : String) (lvl : String) : List Entry :=
  if levelFilter ≠ "all" ∧ lvl ≠ levelFilter then []
  else
    (match alistFind m lvl with
     | none => []
     | some inner => inner).filterMap
      (fun p : String × Record =>
        if search ≠ "" ∧ strIncludes (lowerStr p.1) (lowerStr search) = false then none
        else some ⟨lvl, p.1, p.2⟩)

/-- The visible list before sorting (lines 113-126). -/
def visibleUnsorted (m : List (String × List (String × Record)))
    (levelFilter search : String) : List Entry :=
  (candidateLevels m).flatMap (entriesForLevel m levelFilter search)

/-- "goes before or at" for the sort of line 128:
`(a, b) => a.name.localeCompare(b.name)` with result `<= 0`;
`cmp` stands for the locale's `localeCompare`. -/
def entryLE (cmp : String → String → Int) (a b : Entry) : Bool :=
  decide (cmp a.name b.name ≤ 0)

/-- `visible` (lines 112-130): flatten the dedup map through the two
filters, then sort by display name with `localeCompare` (`cmp`). -/
def visibleEntries (cmp : String → String → Int) (rs : List Record)
    (levelFilter search : String) : List Entry :=
  sortCmp (entryLE cmp) (visibleUnsorted (latestPerStudent rs) levelFilter search)

/-- `LABELS[k] || k` (line 51). -/
def labelOf (k : String) : String := orDefault (alistFind LABELS k) k

/-- "goes before or at" for the score sort of line 49:
`(a, b) => b[1] - a[1]` with result `<= 0`, i.e. descending by score. -/
def scoreLE (a b : String × Int) : Bool := decide (b.2 - a.2 ≤ 0)

/-- The sorted-and-truncated score entries `topIntelligences` labels. -/
def topEntries (scores : Option (List (String × Int))) (n : Nat) :
    List (String × Int) :=
  match scores with
  | none => []
  | some entries => (sortCmp scoreLE entries).take n

/-- `topIntelligences` (lines 46-52): absent scores give `[]`; otherwise
sort the entries by score descending, take `n`, map to labels. -/
def topIntelligences (scores : Option (List (String × Int))) (n : Nat) :
    List String :=
  match scores with
  | none => []
  | some entries => (((sortCmp scoreLE entries).take n).map (fun p => labelOf p.1))

/-- Number of keys of a `scores` object (0 when absent). -/
def numKeys (scores : Option (List (String × Int))) : Nat :=
  match scores with
  | none => 0
  | some entries => entries.length

/-- `typeof scores[key] === "number" ? scores[key] : 0` (line 176);
score values are numbers in the model, so only absence maps to 0. -/
def scoreVal (scores : List (String × Int)) (k : String) : Int :=
  (alistFind scores k).getD 0

/-- The bar-chart values (lines 175-177): one value per canonical key. -/
def barValues (scores : List (String × Int)) : List Int :=
  INTELLIGENCE_KEYS.map (scoreVal scores)

/-- `levelToGrade` (lines 54-61); the argument is optional and `""` is
falsy, so both map to `"Unknown"`. -/
def levelToGrade (level : Option String) : String :=
  match level with
  | none => "Unknown"
  | some s =>
    if s = "" then "Unknown"
    else if s = "level1" then "Grade 9"
    else if s = "level2" then "Grade 10"
    else if s = "level3" then "Grade 11"
    else if s = "level4" then "Grade 12"
    else s

/-- The view-model state `load` touches: `loading` and `results`. -/
structure DashState where
  loading : Bool
  results : List Record
deriving DecidableEq

/-- `load` (lines 71-86) as a state transformer: `fetchResult` is the
outcome of the awaited `getDocs` pipeline (already normalized), and
`mounted` is the guard flag as read after the await.  `setLoading(true)`
runs first; on success or on a caught error the state is updated only
when still mounted; the `finally` clears `loading` only when mounted. -/
def load (fetchResult : Except String (List Record)) (mounted : Bool)
    (s0 : DashState) : DashState :=
  let s1 : DashState := { s0 with loading := true }
  match fetchResult with
  | Except.ok docs =>
    if mounted then { s1 with results := docs, loading := false } else s1
  | Except.error _ =>
    if mounted then { s1 with results := [], loading := false } else s1

/-- Well-formedness of the dedup map, as JS objects guarantee it: no
duplicate level keys, and no duplicate name keys within a level. -/
def WF (m : List (String × List (String × Record))) : Prop :=
  (m.map Prod.fst).Nodup ∧ ∀ p ∈ m, ((p.2.map Prod.fst).Nodup)

/-- The (level, name) key of a visible entry (the UI card key of
line 164, `` `${item.level}-${item.name}` ``). -/
def keyOf (e : Entry) : String × String := (e.level, e.name)

/-- All (level, name) pairs the dedup map retains, in order. -/
def studentPairs (m : List (String × List (String × Record))) :
    List (String × String) :=
  m.flatMap (fun p => p.2.map (fun q => (p.1, q.1)))

/-- A concrete total comparator (code-unit lexicographic order), used to
instantiate the abstract `localeCompare` argument on concrete inputs. -/
def cmpLex (a b : String) : Int :=
  if a < b then -1 else if a = b then 0 else 1

end TD

namespace TD

/-! ### Lemmas about association-list lookup -/

theorem alistFind_eq_none {α : Type} (l : List (String × α)) (k : String) :
    alistFind l k = none ↔ k ∉ l.map Prod.fst := by
  induction l with
  | nil => simp [alistFind]
  | cons p rest ih =>
    obtain ⟨k', v⟩ := p
    by_cases h : k' = k
    · subst h
      simp [alistFind]
    · simp [alistFind, h, Ne.symm h, ih]

theorem alistFind_mem {α : Type} {l : List (String × α)} {k : String} {v : α}
    (h : alistFind l k = some v) : (k, v) ∈ l := by
  induction l with
  | nil => simp [alistFind] at h
  | cons p rest ih =>
    obtain ⟨k', v'⟩ := p
    by_cases hk : k' = k
    · subst hk
      simp [alistFind] at h
      simp [h]
    · simp [alistFind, hk] at h
      exact List.mem_cons_of_mem _ (ih h)

theorem findStudent_cons (l : String) (inner : List (String × Record))
    (rest : List (String × List (String × Record))) (lvl name : String) :
    findStudent ((l, inner) :: rest) lvl name =
      if l = lvl then alistFind inner name else findStudent rest lvl name := by
  by_cases h : l = lvl <;> simp [findStudent, alistFind, h]

/-! ### The dedup step, characterised through lookups -/

theorem alistFind_updateName (inner : List (String × Record))
    (name' name : String) (r : Record) :
    alistFind (updateName inner name' r) name =
      if name' = name then pickLatest (alistFind inner name) r
      else alistFind inner name := by
  induction inner with
  | nil =>
    by_cases h : name' = name <;> simp [updateName, alistFind, h, pickLatest]
  | cons p rest ih =>
    obtain ⟨n, prev⟩ := p
    by_cases hn : n = name'
    · subst hn
      by_cases h : n = name
      · simp [updateName, alistFind, h, pickLatest]
      · simp [updateName, alistFind, h]
    · have hu : updateName ((n, prev) :: rest) name' r =
          (n, prev) :: updateName rest name' r := by
        simp [updateName, hn]
      by_cases h : n = name
      · have hne : name' ≠ name := fun he => hn (h.trans he.symm)
        rw [hu]
        simp [alistFind, h, hne]
      · rw [hu]
        simp [alistFind, h, ih]

theorem findStudent_updateLevel (m : List (String × List (String × Record)))
    (lvl' name' lvl name : String) (r : Record) :
    findStudent (updateLevel m lvl' name' r) lvl name =
      if lvl' = lvl ∧ name' = name then pickLatest (findStudent m lvl name) r
      else findStudent m lvl name := by
  induction m with
  | nil =>
    by_cases hl : lvl' = lvl
    · subst hl
      by_cases hn : name' = name <;>
        simp [updateLevel, findStudent, alistFind, hn, pickLatest]
    · simp [updateLevel, findStudent, alistFind, hl,
        fun hc : lvl' = lvl ∧ name' = name => hl hc.1]
  | cons p rest ih =>
    obtain ⟨l, inner⟩ := p
    by_cases hl : l = lvl'
    · subst hl
      have hu : updateLevel ((l, inner) :: rest) l name' r =
          (l, updateName inner name' r) :: rest := by
        simp [updateLevel]
      rw [hu, findStudent_cons, findStudent_cons]
      by_cases h : l = lvl
      · rw [if_pos h, if_pos h, alistFind_updateName]
        by_cases hn : name' = name
        · rw [if_pos hn, if_pos ⟨h, hn⟩]
        · rw [if_neg hn, if_neg (fun hc => hn hc.2)]
      · rw [if_neg h, if_neg h, if_neg (fun hc => h hc.1)]
    · have hu : updateLevel ((l, inner) :: rest) lvl' name' r =
          (l, inner) :: updateLevel rest lvl' name' r := by
        simp [updateLevel, hl]
      rw [hu, findStudent_cons, findStudent_cons]
      by_cases h : l = lvl
      · rw [if_pos h, if_pos h,
          if_neg (fun hc => hl (h.trans hc.1.symm))]
      · rw [if_neg h, if_neg h, ih]

theorem groupOf_cons (r : Record) (rest : List Record) (lvl name : String) :
    groupOf (r :: rest) lvl name =
      if lvlOf r = lvl ∧ displayName r = name then r :: groupOf rest lvl name
      else groupOf rest lvl name := by
  by_cases h : lvlOf r = lvl ∧ displayName r = name <;>
    simp [groupOf, List.filter_cons, h]

theorem findStudent_foldl (rs : List Record)
    (m : List (String × List (String × Record))) (lvl name : String) :
    findStudent (rs.foldl (fun m r => updateLevel m (lvlOf r) (displayName r) r) m)
        lvl name =
      (groupOf rs lvl name).foldl pickLatest (findStudent m lvl name) := by
  induction rs generalizing m with
  | nil => simp [groupOf]
  | cons r rest ih =>
    simp only [List.foldl_cons]
    rw [ih, findStudent_updateLevel, groupOf_cons]
    by_cases hr : lvlOf r = lvl ∧ displayName r = name
    · rw [if_pos hr, if_pos hr]
      simp only [List.foldl_cons]
    · rw [if_neg hr, if_neg hr]

/-- `latestPerStudent`, characterised through lookups: the retained
record of a (level, name) pair is the `pickLatest` fold of its group. -/
theorem findStudent_latestPerStudent (rs : List Record) (lvl name : String) :
    findStudent (latestPerStudent rs) lvl name = bestOf (groupOf rs lvl name) := by
  have h := findStudent_foldl rs [] lvl name
  simpa [latestPerStudent, findStudent, alistFind, bestOf] using h

/-! ### Properties of the group winner -/

theorem foldl_pickLatest_some (l : List Record) (a : Record) :
    l.foldl pickLatest (some a) = some (l.foldl keepLatest a) := by
  induction l generalizing a with
  | nil => rfl
  | cons x xs ih => simp [List.foldl_cons, pickLatest, ih]

theorem bestOf_cons (r : Record) (l : List Record) :
    bestOf (r :: l) = some (l.foldl keepLatest r) := by
  simp [bestOf, List.foldl_cons, pickLatest, foldl_pickLatest_some]

theorem bestOf_eq_none (l : List Record) : bestOf l = none ↔ l = [] := by
  cases l with
  | nil => simp [bestOf]
  | cons r rest => simp [bestOf_cons]

theorem timeOf_le_keepLatest_left (a x : Record) :
    timeOf a ≤ timeOf (keepLatest a x) := by
  unfold keepLatest
  by_cases h : timeOf a < timeOf x
  · rw [if_pos h]
    exact le_of_lt h
  · rw [if_neg h]

theorem timeOf_le_keepLatest_right (a x : Record) :
    timeOf x ≤ timeOf (keepLatest a x) := by
  unfold keepLatest
  by_cases h : timeOf a < timeOf x
  · rw [if_pos h]
  · rw [if_neg h]
    exact le_of_not_lt h

theorem timeOf_le_foldl_keepLatest (l : List Record) (a : Record) :
    timeOf a ≤ timeOf (l.foldl keepLatest a) := by
  induction l generalizing a with
  | nil => exact le_refl _
  | cons x xs ih =>
    simp only [List.foldl_cons]
    exact le_trans (timeOf_le_keepLatest_left a x) (ih (keepLatest a x))

theorem timeOf_mem_le_foldl_keepLatest (l : List Record) (a : Record) :
    ∀ x ∈ l, timeOf x ≤ timeOf (l.foldl keepLatest a) := by
  induction l generalizing a with
  | nil => simp
  | cons y ys ih =>
    intro x hx
    rcases List.mem_cons.mp hx with h | h
    · subst h
      simp only [List.foldl_cons]
      exact le_trans (timeOf_le_keepLatest_right a x)
        (timeOf_le_foldl_keepLatest ys (keepLatest a x))
    · simp only [List.foldl_cons]
      exact ih (keepLatest a y) x h

theorem foldl_keepLatest_mem (l : List Record) (a : Record) :
    l.foldl keepLatest a ∈ a :: l := by
  induction l generalizing a with
  | nil => simp
  | cons x xs ih =>
    simp only [List.foldl_cons]
    by_cases hc : timeOf a < timeOf x
    · have hk : keepLatest a x = x := if_pos hc
      rw [hk]
      rcases List.mem_cons.mp (ih x) with h' | h'
      · rw [h']
        exact List.mem_cons_of_mem _ (List.mem_cons_self _ _)
      · exact List.mem_cons_of_mem _ (List.mem_cons_of_mem _ h')
    · have hk : keepLatest a x = a := if_neg hc
      rw [hk]
      rcases List.mem_cons.mp (ih a) with h' | h'
      · rw [h']
        exact List.mem_cons_self _ _
      · exact List.mem_cons_of_mem _ (List.mem_cons_of_mem _ h')

/-- The winner is the first record of the group attaining the maximal
timestamp: everything before it in the group is strictly older. -/
theorem foldl_keepLatest_first_seen (l : List Record) (a : Record) :
    ∃ l₁ l₂, a :: l = l₁ ++ (l.foldl keepLatest a) :: l₂ ∧
      ∀ x ∈ l₁, timeOf x < timeOf (l.foldl keepLatest a) := by
  induction l generalizing a with
  | nil => exact ⟨[], [], rfl, by simp⟩
  | cons x xs ih =>
    simp only [List.foldl_cons]
    by_cases hc : timeOf a < timeOf x
    · have hkx : keepLatest a x = x := if_pos hc
      rw [hkx]
      obtain ⟨l₁, l₂, heq, hlt⟩ := ih x
      refine ⟨a :: l₁, l₂, ?_, ?_⟩
      · rw [List.cons_append, ← heq]
      · intro y hy
        rcases List.mem_cons.mp hy with h' | h'
        · rw [h']
          exact lt_of_lt_of_le hc (timeOf_le_foldl_keepLatest xs x)
        · exact hlt y h'
    · have hkx : keepLatest a x = a := if_neg hc
      rw [hkx]
      obtain ⟨l₁, l₂, heq, hlt⟩ := ih a
      cases l₁ with
      | nil =>
        rw [List.nil_append] at heq
        injection heq with h1 h2
        refine ⟨[], x :: xs, ?_, by simp⟩
        rw [List.nil_append, ← h1]
      | cons b l₁' =>
        rw [List.cons_append] at heq
        injection heq with h1 h2
        refine ⟨a :: x :: l₁', l₂, ?_, ?_⟩
        · rw [List.cons_append, List.cons_append, ← h2]
        · intro y hy
          have ha_lt : timeOf a < timeOf (xs.foldl keepLatest a) :=
            lt_of_le_of_lt (le_of_eq (congrArg timeOf h1))
              (hlt b (List.mem_cons_self _ _))
          rcases List.mem_cons.mp hy with h' | h'
          · rw [h']
            exact ha_lt
          · rcases List.mem_cons.mp h' with h'' | h''
            · rw [h'']
              exact lt_of_le_of_lt (le_of_not_lt hc) ha_lt
            · exact hlt y (List.mem_cons_of_mem _ h'')

/-! ### Key sets of the dedup map -/

theorem keys_updateName (inner : List (String × Record)) (name : String)
    (r : Record) :
    (updateName inner name r).map Prod.fst =
      if name ∈ inner.map Prod.fst then inner.map Prod.fst
      else inner.map Prod.fst ++ [name] := by
  induction inner with
  | nil => simp [updateName]
  | cons p rest ih =>
    obtain ⟨n, prev⟩ := p
    by_cases h : n = name
    · subst h
      simp [updateName]
    · simp only [updateName, if_neg h, List.map_cons, ih]
      by_cases hm : name ∈ rest.map Prod.fst
      · rw [if_pos hm, if_pos (List.mem_cons_of_mem _ hm)]
      · have hnc : name ∉ n :: rest.map Prod.fst := by
          intro hc
          rcases List.mem_cons.mp hc with h' | h'
          · exact h h'.symm
          · exact hm h'
        rw [if_neg hm, if_neg hnc, List.cons_append]

theorem keys_updateLevel (m : List (String × List (String × Record)))
    (lvl name : String) (r : Record) :
    (updateLevel m lvl name r).map Prod.fst =
      if lvl ∈ m.map Prod.fst then m.map Prod.fst
      else m.map Prod.fst ++ [lvl] := by
  induction m with
  | nil => simp [updateLevel]
  | cons p rest ih =>
    obtain ⟨l, inner⟩ := p
    by_cases h : l = lvl
    · subst h
      simp [updateLevel]
    · simp only [updateLevel, if_neg h, List.map_cons, ih]
      by_cases hm : lvl ∈ rest.map Prod.fst
      · rw [if_pos hm, if_pos (List.mem_cons_of_mem _ hm)]
      · have hnc : lvl ∉ l :: rest.map Prod.fst := by
          intro hc
          rcases List.mem_cons.mp hc with h' | h'
          · exact h h'.symm
          · exact hm h'
        rw [if_neg hm, if_neg hnc, List.cons_append]

theorem nodup_keys_updateName {inner : List (String × Record)} (name : String)
    (r : Record) (h : (inner.map Prod.fst).Nodup) :
    ((updateName inner name r).map Prod.fst).Nodup := by
  rw [keys_updateName]
  by_cases hm : name ∈ inner.map Prod.fst
  · rwa [if_pos hm]
  · rw [if_neg hm]
    refine List.Nodup.append h (List.nodup_singleton _) ?_
    intro x hx hx'
    exact hm ((List.mem_singleton.mp hx') ▸ hx)

theorem WF_updateLevel (m : List (String × List (String × Record)))
    (lvl name : String) (r : Record) (h : WF m) :
    WF (updateLevel m lvl name r) := by
  induction m with
  | nil =>
    constructor
    · simp [updateLevel]
    · intro p hp
      simp only [updateLevel, List.mem_singleton] at hp
      subst hp
      simp
  | cons q rest ih =>
    obtain ⟨l, inner⟩ := q
    obtain ⟨hk, hv⟩ := h
    rw [List.map_cons, List.nodup_cons] at hk
    have hrest : WF rest := ⟨hk.2, fun p hp => hv p (List.mem_cons_of_mem _ hp)⟩
    by_cases hl : l = lvl
    · subst hl
      have hu : updateLevel ((l, inner) :: rest) l name r =
          (l, updateName inner name r) :: rest := by
        simp [updateLevel]
      rw [hu]
      constructor
      · rw [List.map_cons, List.nodup_cons]
        exact ⟨hk.1, hk.2⟩
      · intro p hp
        rcases List.mem_cons.mp hp with h' | h'
        · subst h'
          exact nodup_keys_updateName _ _ (hv (l, inner) (List.mem_cons_self _ _))
        · exact hv p (List.mem_cons_of_mem _ h')
    · have hu : updateLevel ((l, inner) :: rest) lvl name r =
          (l, inner) :: updateLevel rest lvl name r := by
        simp [updateLevel, hl]
      rw [hu]
      have ihr := ih hrest
      constructor
      · rw [List.map_cons, List.nodup_cons]
        constructor
        · rw [keys_updateLevel]
          by_cases hm : lvl ∈ rest.map Prod.fst
          · rw [if_pos hm]
            exact hk.1
          · rw [if_neg hm]
            intro hc
            rcases List.mem_append.mp hc with h' | h'
            · exact hk.1 h'
            · exact hl (List.mem_singleton.mp h')
        · exact ihr.1
      · intro p hp
        rcases List.mem_cons.mp hp with h' | h'
        · subst h'
          exact hv (l, inner) (List.mem_cons_self _ _)
        · exact ihr.2 p h'

theorem WF_foldl (rs : List Record) (m : List (String × List (String × Record)))
    (h : WF m) :
    WF (rs.foldl (fun m r => updateLevel m (lvlOf r) (displayName r) r) m) := by
  induction rs generalizing m with
  | nil => exact h
  | cons r rest ih => exact ih _ (WF_updateLevel _ _ _ _ h)

theorem WF_latestPerStudent (rs : List Record) : WF (latestPerStudent rs) :=
  WF_foldl rs [] ⟨List.nodup_nil, by simp⟩

theorem mem_studentPairs_fst {m : List (String × List (String × Record))}
    {x : String × String} (hx : x ∈ studentPairs m) : x.1 ∈ m.map Prod.fst := by
  simp only [studentPairs, List.mem_flatMap, List.mem_map] at hx
  obtain ⟨p, hp, q, hq, hxe⟩ := hx
  rw [← hxe]
  exact List.mem_map.mpr ⟨p, hp, rfl⟩

theorem nodup_studentPairs {m : List (String × List (String × Record))}
    (h : WF m) : (studentPairs m).Nodup := by
  induction m with
  | nil => simp [studentPairs]
  | cons p rest ih =>
    obtain ⟨l, inner⟩ := p
    obtain ⟨hk, hv⟩ := h
    rw [List.map_cons, List.nodup_cons] at hk
    have hrest : WF rest := ⟨hk.2, fun q hq => hv q (List.mem_cons_of_mem _ hq)⟩
    have hinner : (inner.map Prod.fst).Nodup := hv (l, inner) (List.mem_cons_self _ _)
    have hpairs : studentPairs ((l, inner) :: rest) =
        inner.map (fun q => (l, q.1)) ++ studentPairs rest := by
      simp [studentPairs]
    rw [hpairs]
    refine List.Nodup.append ?_ (ih hrest) ?_
    · have hmm : inner.map (fun q => (l, q.1)) =
          (inner.map Prod.fst).map (fun n => (l, n)) := by
        rw [List.map_map]
        rfl
      rw [hmm]
      exact hinner.map (fun a b hab => (Prod.ext_iff.mp hab).2)
    · intro x hx hx'
      have h1 : x.1 = l := by
        obtain ⟨q, hq, he⟩ := List.mem_map.mp hx
        rw [← he]
      have h2 : x.1 ∈ rest.map Prod.fst := mem_studentPairs_fst hx'
      exact hk.1 (h1 ▸ h2)

theorem mem_keys_updateLevel {m : List (String × List (String × Record))}
    {lvl name x : String} {r : Record} :
    x ∈ (updateLevel m lvl name r).map Prod.fst ↔
      x ∈ m.map Prod.fst ∨ x = lvl := by
  rw [keys_updateLevel]
  by_cases hm : lvl ∈ m.map Prod.fst
  · rw [if_pos hm]
    constructor
    · exact Or.inl
    · rintro (h | h)
      · exact h
      · exact h ▸ hm
  · rw [if_neg hm]
    simp [List.mem_append]

theorem mem_keys_foldl (rs : List Record)
    (m : List (String × List (String × Record))) (x : String) :
    x ∈ ((rs.foldl (fun m r => updateLevel m (lvlOf r) (displayName r) r) m).map
        Prod.fst) ↔
      x ∈ m.map Prod.fst ∨ ∃ r ∈ rs, lvlOf r = x := by
  induction rs generalizing m with
  | nil => simp
  | cons r rest ih =>
    simp only [List.foldl_cons]
    rw [ih, mem_keys_updateLevel]
    constructor
    · rintro ((h | h) | h)
      · exact Or.inl h
      · exact Or.inr ⟨r, List.mem_cons_self _ _, h.symm⟩
      · obtain ⟨r', hr', he⟩ := h
        exact Or.inr ⟨r', List.mem_cons_of_mem _ hr', he⟩
    · rintro (h | ⟨r', hr', he⟩)
      · exact Or.inl (Or.inl h)
      · rcases List.mem_cons.mp hr' with h' | h'
        · exact Or.inl (Or.inr (by rw [← he, h']))
        · exact Or.inr ⟨r', h', he⟩

theorem mem_keys_latestPerStudent (rs : List Record) (x : String) :
    x ∈ (latestPerStudent rs).map Prod.fst ↔ ∃ r ∈ rs, lvlOf r = x := by
  have h := mem_keys_foldl rs [] x
  simpa [latestPerStudent] using h

theorem latestPerStudent_eq_nil (rs : List Record) :
    latestPerStudent rs = [] ↔ rs = [] := by
  constructor
  · intro h
    cases rs with
    | nil => rfl
    | cons r rest =>
      exfalso
      have hm : lvlOf r ∈ (latestPerStudent (r :: rest)).map Prod.fst :=
        (mem_keys_latestPerStudent _ _).mpr ⟨r, List.mem_cons_self _ _, rfl⟩
      rw [h] at hm
      simp at hm
  · intro h
    subst h
    rfl

/-! ### The comparator sort -/

theorem insertCmp_perm {α : Type} (le : α → α → Bool) (e : α) (l : List α) :
    (insertCmp le e l).Perm (e :: l) := by
  induction l with
  | nil => exact List.Perm.refl _
  | cons x xs ih =>
    by_cases h : le e x
    · rw [insertCmp, if_pos h]
    · rw [insertCmp, if_neg h]
      exact (ih.cons x).trans (List.Perm.swap e x xs)

theorem sortCmp_perm {α : Type} (le : α → α → Bool) (l : List α) :
    (sortCmp le l).Perm l := by
  induction l with
  | nil => exact List.Perm.refl _
  | cons x xs ih =>
    exact (insertCmp_perm le x (sortCmp le xs)).trans (ih.cons x)

theorem mem_sortCmp {α : Type} (le : α → α → Bool) (l : List α) (a : α) :
    a ∈ sortCmp le l ↔ a ∈ l :=
  (sortCmp_perm le l).mem_iff

theorem chain'_insertCmp {α : Type} {le : α → α → Bool}
    (htot : ∀ a b, le a b = true ∨ le b a = true) (e : α) {l : List α}
    (hl : List.Chain' (fun a b => le a b = true) l) :
    List.Chain' (fun a b => le a b = true) (insertCmp le e l) := by
  induction l with
  | nil => exact List.chain'_singleton e
  | cons x xs ih =>
    by_cases h : le e x
    · rw [insertCmp, if_pos h]
      exact List.chain'_cons.mpr ⟨h, hl⟩
    · rw [insertCmp, if_neg h]
      have hxe : le x e = true := (htot e x).resolve_left h
      have hins := ih hl.tail
      cases xs with
      | nil =>
        simp only [insertCmp]
        exact List.chain'_cons.mpr ⟨hxe, List.chain'_singleton e⟩
      | cons y ys =>
        by_cases hy : le e y
        · have heq : insertCmp le e (y :: ys) = e :: y :: ys := by
            rw [insertCmp, if_pos hy]
          rw [heq]
          refine List.chain'_cons.mpr ⟨hxe, ?_⟩
          rw [← heq]
          exact hins
        · have heq : insertCmp le e (y :: ys) = y :: insertCmp le e ys := by
            rw [insertCmp, if_neg hy]
          rw [heq]
          have hxy : le x y = true := (List.chain'_cons.mp hl).1
          refine List.chain'_cons.mpr ⟨hxy, ?_⟩
          rw [← heq]
          exact hins

theorem chain'_sortCmp {α : Type} {le : α → α → Bool}
    (htot : ∀ a b, le a b = true ∨ le b a = true) (l : List α) :
    List.Chain' (fun a b => le a b = true) (sortCmp le l) := by
  induction l with
  | nil => exact List.chain'_nil
  | cons x xs ih => exact chain'_insertCmp htot x ih

theorem cmpLex_total (a b : String) : cmpLex a b ≤ 0 ∨ cmpLex b a ≤ 0 := by
  unfold cmpLex
  rcases lt_trichotomy a b with h | h | h
  · left
    rw [if_pos h]
    decide
  · left
    rw [if_neg (by rw [h]; exact lt_irrefl b), if_pos h]
  · right
    rw [if_pos h]
    decide

theorem scoreLE_total (a b : String × Int) :
    scoreLE a b = true ∨ scoreLE b a = true := by
  unfold scoreLE
  rcases le_total b.2 a.2 with h | h
  · exact Or.inl (decide_eq_true (sub_nonpos.mpr h))
  · exact Or.inr (decide_eq_true (sub_nonpos.mpr h))

/-! ### The visible list -/

theorem mem_entriesForLevel {m : List (String × List (String × Record))}
    {lf s lvl : String} {e : Entry} (he : e ∈ entriesForLevel m lf s lvl) :
    e.level = lvl ∧ (lf = "all" ∨ lvl = lf) ∧
      (s = "" ∨ strIncludes (lowerStr e.name) (lowerStr s) = true) := by
  unfold entriesForLevel at he
  by_cases hg : lf ≠ "all" ∧ lvl ≠ lf
  · rw [if_pos hg] at he
    simp at he
  · rw [if_neg hg] at he
    obtain ⟨p, hp, hpe⟩ := List.mem_filterMap.mp he
    by_cases hs : s ≠ "" ∧ strIncludes (lowerStr p.1) (lowerStr s) = false
    · rw [if_pos hs] at hpe
      simp at hpe
    · rw [if_neg hs] at hpe
      injection hpe with hpe
      refine ⟨by rw [← hpe], ?_, ?_⟩
      · rcases not_and_or.mp hg with h | h
        · exact Or.inl (not_not.mp h)
        · exact Or.inr (not_not.mp h)
      · rcases not_and_or.mp hs with h | h
        · exact Or.inl (not_not.mp h)
        · cases hb : strIncludes (lowerStr p.1) (lowerStr s) with
          | false => exact absurd hb h
          | true =>
            right
            rw [← hpe]
            exact hb

theorem entriesForLevel_names_sublist (m : List (String × List (String × Record)))
    (lf s lvl : String) :
    ((entriesForLevel m lf s lvl).map Entry.name).Sublist
      ((match alistFind m lvl with
        | none => []
        | some inner => inner).map Prod.fst) := by
  unfold entriesForLevel
  by_cases hg : lf ≠ "all" ∧ lvl ≠ lf
  · rw [if_pos hg]
    exact List.nil_sublist _
  · rw [if_neg hg]
    generalize (match alistFind m lvl with
      | none => ([] : List (String × Record))
      | some inner => inner) = inner
    induction inner with
    | nil => exact List.Sublist.refl _
    | cons p ps ih =>
      rw [List.filterMap_cons, List.map_cons]
      by_cases hs : s ≠ "" ∧ strIncludes (lowerStr p.1) (lowerStr s) = false
      · rw [if_pos hs]
        exact ih.cons p.1
      · rw [if_neg hs]
        rw [List.map_cons]
        exact ih.cons₂ p.1

theorem keyOf_entriesForLevel (m : List (String × List (String × Record)))
    (lf s lvl : String) :
    (entriesForLevel m lf s lvl).map keyOf =
      ((entriesForLevel m lf s lvl).map Entry.name).map (fun n => (lvl, n)) := by
  rw [List.map_map]
  apply List.map_congr_left
  intro e he
  have h := (mem_entriesForLevel he).1
  show (e.level, e.name) = (lvl, e.name)
  rw [h]

theorem nodup_inner_keys {m : List (String × List (String × Record))}
    (h : WF m) (lvl : String) :
    ((match alistFind m lvl with
      | none => []
      | some inner => inner).map Prod.fst).Nodup := by
  cases hf : alistFind m lvl with
  | none => simp
  | some inner => exact h.2 (lvl, inner) (alistFind_mem hf)

theorem nodup_flatMap_keys (keys : List String)
    (g : String → List (String × String)) (hkeys : keys.Nodup)
    (hn : ∀ l, (g l).Nodup) (hf : ∀ l x, x ∈ g l → x.1 = l) :
    (keys.flatMap g).Nodup := by
  induction keys with
  | nil => simp
  | cons k ks ih =>
    rw [List.flatMap_cons]
    rw [List.nodup_cons] at hkeys
    refine List.Nodup.append (hn k) (ih hkeys.2) ?_
    intro x hx hx'
    obtain ⟨l, hl, hxl⟩ := List.mem_flatMap.mp hx'
    have h1 : x.1 = k := hf k x hx
    have h2 : x.1 = l := hf l x hxl
    have hkl : k = l := h1.symm.trans h2
    apply hkeys.1
    rw [hkl]
    exact hl

theorem nodup_keyOf_visibleUnsorted (m : List (String × List (String × Record)))
    (lf s : String) (h : WF m) :
    ((visibleUnsorted m lf s).map keyOf).Nodup := by
  unfold visibleUnsorted
  rw [List.map_flatMap]
  apply nodup_flatMap_keys
  · unfold candidateLevels
    by_cases hm : m.map Prod.fst = ([] : List String)
    · rw [if_pos hm]
      decide
    · rw [if_neg hm]
      exact h.1
  · intro l
    rw [keyOf_entriesForLevel]
    refine List.Nodup.map (fun a b hab => (Prod.ext_iff.mp hab).2) ?_
    exact (entriesForLevel_names_sublist m lf s l).nodup (nodup_inner_keys h l)
  · intro l x hx
    obtain ⟨e, he, hxe⟩ := List.mem_map.mp hx
    rw [← hxe]
    exact (mem_entriesForLevel he).1

/-! ### Claim theorems -/

/-- C1: for every input record sequence, `latestPerStudent` retains
exactly one record per distinct (level, displayName) pair occurring in
the input — level defaulting to "unknown", displayName being the trimmed
concatenation of the names or "(no name)" — and the retained record is a
member of its group with maximal `createdAt` timestamp; on equal
timestamps the first-seen record is kept (everything before the winner
in its group is strictly older). -/
theorem latestPerStudent_spec (rs : List Record) (lvl name : String) :
    (studentPairs (latestPerStudent rs)).Nodup ∧
    findStudent (latestPerStudent rs) lvl name = bestOf (groupOf rs lvl name) ∧
    ((findStudent (latestPerStudent rs) lvl name).isSome = true ↔
      ∃ r ∈ rs, lvlOf r = lvl ∧ displayName r = name) ∧
    (∀ r, findStudent (latestPerStudent rs) lvl name = some r →
      r ∈ groupOf rs lvl name ∧
      (∀ x ∈ groupOf rs lvl name, timeOf x ≤ timeOf r) ∧
      ∃ l₁ l₂, groupOf rs lvl name = l₁ ++ r :: l₂ ∧
        ∀ x ∈ l₁, timeOf x < timeOf r) := by
  refine ⟨nodup_studentPairs (WF_latestPerStudent rs),
    findStudent_latestPerStudent rs lvl name, ?_, ?_⟩
  · rw [findStudent_latestPerStudent]
    constructor
    · intro h
      cases hg : groupOf rs lvl name with
      | nil =>
        rw [hg] at h
        simp [bestOf] at h
      | cons g gs =>
        have hmem : g ∈ groupOf rs lvl name := by
          rw [hg]
          exact List.mem_cons_self g gs
        have hf := List.mem_filter.mp hmem
        exact ⟨g, hf.1, of_decide_eq_true hf.2⟩
    · rintro ⟨r, hr, hc⟩
      have hmem : r ∈ groupOf rs lvl name :=
        List.mem_filter.mpr ⟨hr, decide_eq_true hc⟩
      cases hg : groupOf rs lvl name with
      | nil =>
        rw [hg] at hmem
        simp at hmem
      | cons g gs =>
        rw [bestOf_cons]
        rfl
  · intro r hr
    rw [findStudent_latestPerStudent] at hr
    cases hg : groupOf rs lvl name with
    | nil =>
      rw [hg] at hr
      simp [bestOf] at hr
    | cons g gs =>
      rw [hg, bestOf_cons] at hr
      injection hr with hr
      refine ⟨?_, ?_, ?_⟩
      · rw [← hr]
        exact foldl_keepLatest_mem gs g
      · intro x hx
        rw [← hr]
        rcases List.mem_cons.mp hx with h | h
        · rw [h]
          exact timeOf_le_foldl_keepLatest gs g
        · exact timeOf_mem_le_foldl_keepLatest gs g x h
      · rw [← hr]
        exact foldl_keepLatest_first_seen gs g

/-- C2: every entry of `visibleEntries` passes both filters: the grade
filter is "all" or matches the entry's level, and the search text is
empty or is contained case-insensitively in the entry's name. -/
theorem visibleEntries_filter_spec (cmp : String → String → Int)
    (rs : List Record) (lf s : String) (e : Entry)
    (he : e ∈ visibleEntries cmp rs lf s) :
    (lf = "all" ∨ e.level = lf) ∧
      (s = "" ∨ strIncludes (lowerStr e.name) (lowerStr s) = true) := by
  unfold visibleEntries at he
  rw [mem_sortCmp] at he
  obtain ⟨lvl, hlvl, he'⟩ := List.mem_flatMap.mp he
  have h := mem_entriesForLevel he'
  refine ⟨?_, h.2.2⟩
  rcases h.2.1 with h' | h'
  · exact Or.inl h'
  · exact Or.inr (h.1.trans h')

/-- C2 witness: on a concrete one-record input with both filters
disabled, the unique visible entry satisfies the filter property. -/
theorem visibleEntries_filter_spec_witness :
    ("all" = "all" ∨
      (Entry.mk "level1" "Amy Lee"
        (Record.mk (some "Amy") (some "Lee") (some "level1") none (some 1))).level
        = "all") ∧
    ("" = "" ∨
      strIncludes
        (lowerStr (Entry.mk "level1" "Amy Lee"
          (Record.mk (some "Amy") (some "Lee") (some "level1") none (some 1))).name)
        (lowerStr "") = true) :=
  visibleEntries_filter_spec cmpLex
    [Record.mk (some "Amy") (some "Lee") (some "level1") none (some 1)]
    "all" "" _ (by decide)

/-- C3: for any total comparator (modelling `localeCompare`), the
visible list is sorted ascending by display name: consecutive entries
compare at most 0. -/
theorem visibleEntries_sorted (cmp : String → String → Int)
    (htot : ∀ a b : String, cmp a b ≤ 0 ∨ cmp b a ≤ 0)
    (rs : List Record) (lf s : String) :
    List.Chain' (fun a b : Entry => cmp a.name b.name ≤ 0)
      (visibleEntries cmp rs lf s) := by
  have htot' : ∀ a b : Entry, entryLE cmp a b = true ∨ entryLE cmp b a = true := by
    intro a b
    rcases htot a.name b.name with h | h
    · exact Or.inl (decide_eq_true h)
    · exact Or.inr (decide_eq_true h)
  unfold visibleEntries
  exact (chain'_sortCmp htot' _).imp
    (fun a b hab => of_decide_eq_true hab)

/-- C3 witness: with the concrete code-unit comparator and a two-record
input the visible list comes out sorted. -/
theorem visibleEntries_sorted_witness :
    List.Chain' (fun a b : Entry => cmpLex a.name b.name ≤ 0)
      (visibleEntries cmpLex
        [Record.mk (some "Zoe") none (some "level2") none (some 5),
         Record.mk (some "Amy") (some "Lee") (some "level1") none (some 1)]
        "all" "") :=
  visibleEntries_sorted cmpLex cmpLex_total _ "all" ""

/-- C10: no two entries of `visibleEntries` share the same
(level, name) pair: the mapped key list is duplicate-free, for any
comparator, input and filter state. -/
theorem visibleEntries_keys_nodup (cmp : String → String → Int)
    (rs : List Record) (lf s : String) :
    ((visibleEntries cmp rs lf s).map keyOf).Nodup := by
  unfold visibleEntries
  have hperm := (sortCmp_perm (entryLE cmp)
    (visibleUnsorted (latestPerStudent rs) lf s)).map keyOf
  exact hperm.nodup_iff.mpr
    (nodup_keyOf_visibleUnsorted _ lf s (WF_latestPerStudent rs))

/-- C4: `topIntelligences` at n = 3 returns at most 3 labels and no more
labels than `scores` has keys; the labels are the images of the score
entries sorted descending by score (consecutive retained entries are
non-increasing); an absent `scores` gives the empty list. -/
theorem topIntelligences_spec (scores : Option (List (String × Int))) (n : Nat) :
    topIntelligences scores n = (topEntries scores n).map (fun p => labelOf p.1) ∧
    (topIntelligences scores 3).length ≤ 3 ∧
    (topIntelligences scores 3).length ≤ numKeys scores ∧
    List.Chain' (fun a b : String × Int => b.2 ≤ a.2) (topEntries scores n) ∧
    topIntelligences none 3 = [] := by
  refine ⟨?_, ?_, ?_, ?_, rfl⟩
  · cases scores <;> rfl
  · cases scores with
    | none => simp [topIntelligences]
    | some entries =>
      simp only [topIntelligences, List.length_map]
      exact List.length_take_le _ _
  · cases scores with
    | none => simp [topIntelligences, numKeys]
    | some entries =>
      simp only [topIntelligences, numKeys, List.length_map, List.length_take]
      rw [(sortCmp_perm scoreLE entries).length_eq]
      exact min_le_right _ _
  · cases scores with
    | none => exact List.chain'_nil
    | some entries =>
      have hch := chain'_sortCmp scoreLE_total entries
      exact (hch.take n).imp
        (fun a b hab => sub_nonpos.mp (of_decide_eq_true hab))

/-- C5 counterexample: a scores key outside the eight-key enumeration is
not ignored by the top-label computation: "Bogus" outranks a real key
and appears first among the labels, and removing it changes the result. -/
theorem topIntelligences_unknown_key_cex :
    topIntelligences (some [("Bogus", 9), ("Linguistic", 1)]) 3 =
      ["Bogus", "Linguistic"] ∧
    "Bogus" ∉ INTELLIGENCE_KEYS ∧
    topIntelligences (some [("Linguistic", 1)]) 3 = ["Linguistic"] :=
  ⟨by decide, by decide, by decide⟩

/-- C5 amended: a scores key outside the eight-key enumeration is
ignored by the bar chart (it changes no bar value) and, being absent
from `LABELS`, is rendered under its raw key name when the top-label
computation retains it; the record itself is never modified. -/
theorem unknown_scores_keys_spec (scores : List (String × Int)) (k : String)
    (v : Int) (hk : k ∉ INTELLIGENCE_KEYS) :
    barValues ((k, v) :: scores) = barValues scores ∧
    (∀ key ∈ INTELLIGENCE_KEYS, scoreVal ((k, v) :: scores) key = scoreVal scores key) ∧
    labelOf k = k := by
  have hvals : ∀ key ∈ INTELLIGENCE_KEYS,
      scoreVal ((k, v) :: scores) key = scoreVal scores key := by
    intro key hkey
    have hne : k ≠ key := fun he => hk (he ▸ hkey)
    simp [scoreVal, alistFind, hne]
  refine ⟨?_, hvals, ?_⟩
  · unfold barValues
    exact List.map_congr_left hvals
  · have hnone : alistFind LABELS k = none := by
      rw [alistFind_eq_none]
      intro hm
      apply hk
      have he : LABELS.map Prod.fst = INTELLIGENCE_KEYS := by decide
      rwa [he] at hm
    rw [labelOf, hnone]
    rfl

/-- C5 amended witness: the "Bogus" key changes no bar value and is
rendered under its own name. -/
theorem unknown_scores_keys_spec_witness :
    barValues [("Bogus", 9), ("Musical", 3)] = barValues [("Musical", 3)] ∧
    (∀ key ∈ INTELLIGENCE_KEYS,
      scoreVal [("Bogus", 9), ("Musical", 3)] key = scoreVal [("Musical", 3)] key) ∧
    labelOf "Bogus" = "Bogus" :=
  unknown_scores_keys_spec [("Musical", 3)] "Bogus" 9 (by decide)

/-- C6 counterexample: a record with a present epoch timestamp
(`createdAt` = 0) does not displace the earlier-seen record with a
missing `createdAt` in the same (level, name) group. -/
theorem missing_createdAt_cex :
    (Record.mk (some "Amy") (some "Lee") (some "level1") none none ≠
      Record.mk (some "Amy") (some "Lee") (some "level1")
        (some [("Musical", 1)]) (some 0)) ∧
    (Record.mk (some "Amy") (some "Lee") (some "level1")
      (some [("Musical", 1)]) (some 0)).createdAt.isSome = true ∧
    findStudent (latestPerStudent
        [Record.mk (some "Amy") (some "Lee") (some "level1") none none,
         Record.mk (some "Amy") (some "Lee") (some "level1")
           (some [("Musical", 1)]) (some 0)])
      "level1" "Amy Lee" =
      some (Record.mk (some "Amy") (some "Lee") (some "level1") none none) :=
  ⟨by decide, rfl, by decide⟩

/-- C6 amended: a record with missing `createdAt` is treated as having
timestamp 0, so it is displaced exactly by records with a positive
timestamp: the dedup step keeps the newcomer when its timestamp is
positive and keeps the missing-timestamp record otherwise, and on a
two-record group `latestPerStudent` retains the positively-timestamped
newcomer. -/
theorem missing_createdAt_spec (prev r : Record) (t : Int)
    (hprev : prev.createdAt = none) (hr : r.createdAt = some t) :
    (0 < t → keepLatest prev r = r) ∧
    (t ≤ 0 → keepLatest prev r = prev) ∧
    (0 < t → lvlOf prev = lvlOf r → displayName prev = displayName r →
      findStudent (latestPerStudent [prev, r]) (lvlOf r) (displayName r) =
        some r) := by
  have htp : timeOf prev = 0 := by simp [timeOf, hprev]
  have htr : timeOf r = t := by simp [timeOf, hr]
  have h1 : 0 < t → keepLatest prev r = r := by
    intro h0
    unfold keepLatest
    rw [htp, htr]
    exact if_pos h0
  refine ⟨h1, ?_, ?_⟩
  · intro h0
    unfold keepLatest
    rw [htp, htr]
    exact if_neg (not_lt.mpr h0)
  · intro h0 hl hd
    rw [findStudent_latestPerStudent]
    have hg : groupOf [prev, r] (lvlOf r) (displayName r) = [prev, r] := by
      simp [groupOf, hl, hd]
    rw [hg, bestOf_cons]
    simp [List.foldl_cons, h1 h0]

/-- C6 amended witness: a day-5 record displaces the missing-timestamp
record of the same student. -/
theorem missing_createdAt_spec_witness :
    keepLatest (Record.mk (some "Amy") (some "Lee") (some "level1") none none)
        (Record.mk (some "Amy") (some "Lee") (some "level1") none (some 5)) =
      Record.mk (some "Amy") (some "Lee") (some "level1") none (some 5) :=
  (missing_createdAt_spec
    (Record.mk (some "Amy") (some "Lee") (some "level1") none none)
    (Record.mk (some "Amy") (some "Lee") (some "level1") none (some 5))
    5 rfl rfl).1 (by decide)

/-- C7: `levelToGrade` maps the four level tags to Grade 9 through
Grade 12, any other non-empty value to itself, and a missing or empty
value to "Unknown". -/
theorem levelToGrade_spec :
    levelToGrade none = "Unknown" ∧
    levelToGrade (some "") = "Unknown" ∧
    levelToGrade (some "level1") = "Grade 9" ∧
    levelToGrade (some "level2") = "Grade 10" ∧
    levelToGrade (some "level3") = "Grade 11" ∧
    levelToGrade (some "level4") = "Grade 12" ∧
    ∀ s : String, s ≠ "" → s ∉ ["level1", "level2", "level3", "level4"] →
      levelToGrade (some s) = s := by
  refine ⟨rfl, by decide, by decide, by decide, by decide, by decide, ?_⟩
  intro s hs hmem
  simp only [List.mem_cons, List.not_mem_nil, or_false, not_or] at hmem
  obtain ⟨h1, h2, h3, h4⟩ := hmem
  show (if s = "" then "Unknown"
    else if s = "level1" then "Grade 9"
    else if s = "level2" then "Grade 10"
    else if s = "level3" then "Grade 11"
    else if s = "level4" then "Grade 12"
    else s) = s
  rw [if_neg hs, if_neg h1, if_neg h2, if_neg h3, if_neg h4]

/-- C8: when the fetch fails with any error, `load` catches it and
converts it to the empty result set: `results` is empty and `loading` is
false afterwards; `load` is a total function, so no error escapes. -/
theorem load_failure_spec (e : String) (s0 : DashState) :
    (load (Except.error e) true s0).results = [] ∧
    (load (Except.error e) true s0).loading = false :=
  ⟨rfl, rfl⟩

/-- C9: the candidate level list of `visibleEntries` consists of exactly
the levels present in `latestPerStudent` when there are any (i.e. when
the input is non-empty), and is exactly the fixed four-level enumeration
when the input is empty. -/
theorem candidateLevels_spec (rs : List Record) (l : String) :
    (latestPerStudent rs = [] ↔ rs = []) ∧
    (rs = [] → candidateLevels (latestPerStudent rs) =
      ["level1", "level2", "level3", "level4"]) ∧
    (rs ≠ [] →
      (l ∈ candidateLevels (latestPerStudent rs) ↔ ∃ r ∈ rs, lvlOf r = l)) := by
  refine ⟨latestPerStudent_eq_nil rs, ?_, ?_⟩
  · intro h
    subst h
    rfl
  · intro h
    have hm : latestPerStudent rs ≠ [] :=
      fun hc => h ((latestPerStudent_eq_nil rs).mp hc)
    have hkeys : (latestPerStudent rs).map Prod.fst ≠ ([] : List String) := by
      intro hc
      exact hm (List.map_eq_nil_iff.mp hc)
    unfold candidateLevels
    rw [if_neg hkeys]
    exact mem_keys_latestPerStudent rs l
